import Mathlib

/-!
Verification development for the routing and middleware-composition core of
the `rum` web framework (`src/rum/src/routing.rs`, `src/rum/src/middleware.rs`,
`src/rum/src/typemap.rs`, `src/rum/src/server.rs`).

Shallow embedding conventions:
- `HashMap<K, V>` is embedded as an association list `List (K × V)` with
  insert-replaces-value-in-place semantics (`insertKey`), matching
  `std::collections::HashMap` observable behaviour up to iteration order.
- `Arc<[T]>` sequences are embedded as `List T`.
- `Result<T>` values produced by the route trie are embedded as the inductive
  `RouteResult`, restricted to the variants the routing code actually
  produces (`Ok`, `Error::NotFound`, `Error::MethodNotAllowed`).  The
  `unreachable!()` arm of `RouteLevel::get_recursive` is embedded as the
  explicit outcome `panicked`.
- async callables are embedded as pure functions; the `req.next` capability
  threaded through `Request` by the middleware chain builder is
  defunctionalized into an explicit function argument.
-/

/-- Association list lookup, embedding `HashMap::get`. -/
def lookupKey {κ β : Type} [DecidableEq κ] : List (κ × β) → κ → Option β
  | [], _ => none
  | (k', v') :: t, k => if k' = k then some v' else lookupKey t k

/-- Association list insertion, embedding `HashMap::insert`: replaces the
value at an existing key in place, otherwise appends a new binding. -/
def insertKey {κ β : Type} [DecidableEq κ] : List (κ × β) → κ → β → List (κ × β)
  | [], k, v => [(k, v)]
  | (k', v') :: t, k, v => if k' = k then (k, v) :: t else (k', v') :: insertKey t k v

/-- A segment of a route path (`RoutePathSegment` in `routing.rs`). -/
inductive RoutePathSegment where
  | Static (name : String)
  | Wildcard (name : String)
deriving DecidableEq, Repr

/-- A route path (`RoutePath`), an immutable sequence of segments. -/
abbrev RoutePath := List RoutePathSegment

/-- A segment of a matched route path (`RoutePathMatchedSegment`). -/
inductive RoutePathMatchedSegment where
  | Static (name : String)
  | Wildcard (name : String) (value : String)
deriving DecidableEq, Repr

/-- A matched route path (`RoutePathMatched`). -/
abbrev RoutePathMatched := List RoutePathMatchedSegment

/-- Splitting a character sequence on `/`, embedding `str::split('/')`
(split pieces include empty ones at the ends and between adjacent
separators, as in Rust). -/
def splitSlash : List Char → List (List Char)
  | [] => [[]]
  | c :: rest =>
    if c = '/' then [] :: splitSlash rest
    else
      match splitSlash rest with
      | [] => [[c]]
      | s :: ss => (c :: s) :: ss

/-- Parsing one split piece, embedding the `filter_map` closure of
`impl From<&str> for RoutePath` (`routing.rs` lines 140-162): empty pieces
are dropped, a piece that starts with `\x7b`, ends with `\x7d` and has
length > 2 becomes a wildcard named by the inner text, everything else is a
static segment.  Rust measures `len()` and slices in bytes; characters are
used here, which agrees on ASCII input. -/
def parseSegment (seg : List Char) : Option RoutePathSegment :=
  match seg with
  | [] => none
  | c :: _ =>
    if c = '{' && seg.getLast? = some '}' && seg.length > 2 then
      some (RoutePathSegment.Wildcard (String.mk ((seg.drop 1).dropLast)))
    else some (RoutePathSegment.Static (String.mk seg))

/-- Embedding of `impl From<&str> for RoutePath`: split on `/` and parse
each non-empty piece. -/
def RoutePath.from_string (value : String) : RoutePath :=
  (splitSlash value.data).filterMap parseSegment

/-- One end of a Rust `RangeBounds` value (`std::ops::Bound`). -/
inductive RBound where
  | included (n : Nat)
  | excluded (n : Nat)
  | unbounded
deriving DecidableEq, Repr

/-- A Rust range handed to `with_segments` / `of_segments`, as a pair of
bounds. -/
structure RRange where
  start : RBound
  stop : RBound
deriving DecidableEq, Repr

/-- The Rust range expression `a..b` (start bound `Included a`, end bound
`Excluded b`). -/
def rustRange (a b : Nat) : RRange :=
  ⟨RBound.included a, RBound.excluded b⟩

/-- Embedding of `RoutePath::with_segments` (`routing.rs` lines 85-101).
The start index is computed by mapping `Excluded(bound)` to `bound` and
`Included(bound)` to `bound + 1` — exactly as the source does — and the end
index by mapping `Excluded(bound)` to `bound` and `Included(bound)` to
`bound + 1`.  The final `&self.0[start..end]` panics when `start > end` or
`end > len`; the panic is embedded as `none`. -/
def RoutePath.with_segments (p : RoutePath) (range : RRange) : Option RoutePath :=
  let start := match range.start with
    | RBound.excluded bound => bound
    | RBound.included bound => bound + 1
    | RBound.unbounded => 0
  let stop := match range.stop with
    | RBound.excluded bound => bound
    | RBound.included bound => bound + 1
    | RBound.unbounded => p.length
  if start ≤ stop ∧ stop ≤ p.length then some ((p.drop start).take (stop - start)) else none

/-- Embedding of `RoutePath::of_segments`: a new path built from
`with_segments` of the given range. -/
def RoutePath.of_segments (p : RoutePath) (range : RRange) : Option RoutePath :=
  p.with_segments range

/-- HTTP methods as used by the routing tree (`HttpMethod`). -/
inductive HttpMethod where
  | get
  | head
  | post
  | put
  | delete
  | connect
  | opts
  | trce
  | patch
deriving DecidableEq, Repr

/-- A route handler together with its installed middleware
(`CompleteRouteHandler`).  The source also stores a pre-built `invoker`
closure; the invoker is a function of the other two fields
(`generate_invoker`), whose semantics is embedded separately in the `Chain`
namespace, so it is not duplicated here.  Middleware and handlers are opaque
reference-counted callables in the source and are represented by the type
parameters `M` and `H`. -/
structure CompleteRouteHandler (M H : Type) where
  middleware : List M
  handler : H
deriving DecidableEq, Repr

/-- Embedding of `CompleteRouteHandler::new`: stores the given middleware
list and handler. -/
def CompleteRouteHandler.new {M H : Type} (handler : H) (middleware : List M) :
    CompleteRouteHandler M H :=
  ⟨middleware, handler⟩

/-- Embedding of `CompleteRouteHandler::add_middleware`: the argument list is
extended with the existing middleware, i.e. the new middleware is prepended
(runs outermost). -/
def CompleteRouteHandler.add_middleware {M H : Type} (h : CompleteRouteHandler M H)
    (middleware : List M) : CompleteRouteHandler M H :=
  ⟨middleware ++ h.middleware, h.handler⟩

/-- A node of the route trie (`RouteLevel`): routes registered at this node
keyed by method, static children keyed by segment name, and at most one
named wildcard child. -/
inductive RouteLevel (M H : Type) where
  | mk (self_routes : List (HttpMethod × CompleteRouteHandler M H))
      (static_sub_routes : List (String × RouteLevel M H))
      (wildcard_sub_route : Option (String × RouteLevel M H)) : RouteLevel M H

/-- Routes registered at this node, keyed by method. -/
def RouteLevel.self_routes {M H : Type} : RouteLevel M H → List (HttpMethod × CompleteRouteHandler M H)
  | .mk s _ _ => s

/-- Static children of this node, keyed by segment name. -/
def RouteLevel.static_sub_routes {M H : Type} : RouteLevel M H → List (String × RouteLevel M H)
  | .mk _ s _ => s

/-- The optional named wildcard child of this node. -/
def RouteLevel.wildcard_sub_route {M H : Type} : RouteLevel M H → Option (String × RouteLevel M H)
  | .mk _ _ w => w

/-- Embedding of `RouteLevel::new` / `Default`: the empty node. -/
def RouteLevel.empty {M H : Type} : RouteLevel M H := .mk [] [] none

/-- Outcome of a route lookup: the `Result<(RoutePathMatched,
CompleteRouteHandler)>` returned by `RouteLevel::get`, restricted to the
variants the routing code produces, plus `panicked` for the `unreachable!()`
arm. -/
inductive RouteResult (M H : Type) where
  | ok (path_match : RoutePathMatched) (route : CompleteRouteHandler M H)
  | notFound
  | methodNotAllowed
  | panicked
deriving DecidableEq, Repr

/-- Embedding of `RouteLevel::get_recursive` (`routing.rs` lines 466-501):
empty remaining path looks the method up in `self_routes` and reports
`MethodNotAllowed` when absent (the source builds the error with
`Error::MethodNotAllowed`, passing no method set); a static head segment
descends into the matching static child, else into the wildcard child with
the literal value recorded, else reports `NotFound`; a wildcard head segment
hits `unreachable!()`. -/
def RouteLevel.get_recursive {M H : Type} : RouteLevel M H → HttpMethod → RoutePath →
    RoutePathMatched → RouteResult M H
  | t, method, [], path_match =>
    match lookupKey t.self_routes method with
    | some route => .ok path_match route
    | none => .methodNotAllowed
  | t, method, RoutePathSegment.Static name :: rest, path_match =>
    match lookupKey t.static_sub_routes name with
    | some routes => routes.get_recursive method rest (path_match ++ [RoutePathMatchedSegment.Static name])
    | none =>
      match t.wildcard_sub_route with
      | some (wildcard_name, routes) =>
        routes.get_recursive method rest
          (path_match ++ [RoutePathMatchedSegment.Wildcard wildcard_name name])
      | none => .notFound
  | _, _, RoutePathSegment.Wildcard _ :: _, _ => .panicked

/-- Embedding of `RouteLevel::get`. -/
def RouteLevel.get {M H : Type} (t : RouteLevel M H) (method : HttpMethod) (path : RoutePath) :
    RouteResult M H :=
  t.get_recursive method path []

/-- Embedding of `RouteLevel::add` (`routing.rs` lines 514-532): an empty
path records the handler in `self_routes`; a static head segment descends
into the existing child (`entry(name).or_default()`), creating it on demand;
a wildcard head segment builds a fresh default node, adds the remainder into
it and replaces the whole `wildcard_sub_route` slot with it. -/
def RouteLevel.add {M H : Type} : RouteLevel M H → HttpMethod → RoutePath →
    CompleteRouteHandler M H → RouteLevel M H
  | t, method, [], handler =>
    .mk (insertKey t.self_routes method handler) t.static_sub_routes t.wildcard_sub_route
  | t, method, RoutePathSegment.Static name :: rest, handler =>
    let child := (lookupKey t.static_sub_routes name).getD RouteLevel.empty
    .mk t.self_routes (insertKey t.static_sub_routes name (child.add method rest handler))
      t.wildcard_sub_route
  | t, method, RoutePathSegment.Wildcard name :: rest, handler =>
    .mk t.self_routes t.static_sub_routes
      (some (name, (RouteLevel.empty).add method rest handler))

mutual

/-- Embedding of `RouteLevel::flatten_recursive` (`routing.rs` lines
551-574): the routes at this node paired with the accumulated declared path,
followed by the flattened static children (each extended by its static
segment) and the flattened wildcard child (extended by its wildcard
segment). -/
def RouteLevel.flatten_recursive {M H : Type} :
    RouteLevel M H → RoutePath → List (HttpMethod × RoutePath × CompleteRouteHandler M H)
  | .mk self statics wild, subpath =>
    self.map (fun r => (r.1, subpath, r.2))
    ++ flattenStatics statics subpath
    ++ flattenWild wild subpath

/-- The static-children part of the `flatten_recursive` loop. -/
def flattenStatics {M H : Type} :
    List (String × RouteLevel M H) → RoutePath → List (HttpMethod × RoutePath × CompleteRouteHandler M H)
  | [], _ => []
  | (name, c) :: rest, subpath =>
    c.flatten_recursive (subpath ++ [RoutePathSegment.Static name]) ++ flattenStatics rest subpath

/-- The wildcard-child part of the `flatten_recursive` loop. -/
def flattenWild {M H : Type} :
    Option (String × RouteLevel M H) → RoutePath → List (HttpMethod × RoutePath × CompleteRouteHandler M H)
  | none, _ => []
  | some (name, c), subpath => c.flatten_recursive (subpath ++ [RoutePathSegment.Wildcard name])

end

/-- Embedding of `RouteLevel::flatten`. -/
def RouteLevel.flatten {M H : Type} (t : RouteLevel M H) :
    List (HttpMethod × RoutePath × CompleteRouteHandler M H) :=
  t.flatten_recursive []

/-- Embedding of `RouteLevel::add_level` (`routing.rs` lines 540-548): every
route of the flattened level has the given middleware prepended with
`add_middleware` and is re-inserted under the mount-point subpath. -/
def RouteLevel.add_level {M H : Type} (t : RouteLevel M H) (subpath : RoutePath)
    (routes : RouteLevel M H) (middleware : List M) : RouteLevel M H :=
  routes.flatten.foldl
    (fun acc r => acc.add r.1 (subpath ++ r.2.1) (r.2.2.add_middleware middleware)) t

/-- A middleware declaration tagged local-only or recursive-into-children
(`AppliedMiddleware` in `middleware.rs`). -/
inductive AppliedMiddleware (M : Type) where
  | Local (m : M)
  | Recursive (m : M)
deriving DecidableEq, Repr

/-- A group of routes under a given path (`RouteGroup`): direct routes keyed
by `(method, path)` (a `HashMap` in the source, embedded as an association
list), nested sub-groups, and the middleware declarations in declaration
order (`MiddlewareCollection`). -/
inductive RouteGroup (M H : Type) where
  | mk (path : RoutePath)
      (routes : List ((HttpMethod × RoutePath) × H))
      (groups : List (RouteGroup M H))
      (middleware : List (AppliedMiddleware M)) : RouteGroup M H

/-- The path of the route group. -/
def RouteGroup.path {M H : Type} : RouteGroup M H → RoutePath
  | .mk p _ _ _ => p

/-- The direct routes of the route group. -/
def RouteGroup.routes {M H : Type} : RouteGroup M H → List ((HttpMethod × RoutePath) × H)
  | .mk _ r _ _ => r

/-- The nested sub-groups of the route group. -/
def RouteGroup.groups {M H : Type} : RouteGroup M H → List (RouteGroup M H)
  | .mk _ _ g _ => g

/-- The registered middleware of the route group, in declaration order. -/
def RouteGroup.middleware {M H : Type} : RouteGroup M H → List (AppliedMiddleware M)
  | .mk _ _ _ m => m

/-- The `local_middleware` list computed by the fold in
`RouteGroup::into_route_level` (`routing.rs` lines 749-762): all `Local`
entries plus clones of all `Recursive` entries, in declaration order. -/
def localMiddlewareOf {M : Type} (mws : List (AppliedMiddleware M)) : List M :=
  mws.filterMap (fun mw =>
    match mw with
    | AppliedMiddleware.Local inner => some inner
    | AppliedMiddleware.Recursive inner => some inner)

/-- The `recursive_middleware` list computed by the same fold: only the
`Recursive` entries, in declaration order. -/
def recursiveMiddlewareOf {M : Type} (mws : List (AppliedMiddleware M)) : List M :=
  mws.filterMap (fun mw =>
    match mw with
    | AppliedMiddleware.Local _ => none
    | AppliedMiddleware.Recursive inner => some inner)

mutual

/-- Embedding of `RouteGroup::into_route_level` (`routing.rs` lines
748-780): partition the middleware into local and recursive lists; register
every direct route with a `CompleteRouteHandler` carrying the local list;
then merge every nested sub-group (`RouteLevel::add_group`, i.e. `add_level`
at the sub-group's path) passing down the recursive list. -/
def RouteGroup.into_route_level {M H : Type} : RouteGroup M H → RouteLevel M H
  | .mk _path routes groups middleware =>
    let local_middleware := localMiddlewareOf middleware
    let recursive_middleware := recursiveMiddlewareOf middleware
    let base := routes.foldl
      (fun acc r => acc.add r.1.1 r.1.2 (CompleteRouteHandler.new r.2 local_middleware))
      RouteLevel.empty
    intoGroups groups recursive_middleware base

/-- The sub-group loop of `into_route_level`: merge each nested group in
declaration order with `add_level` at its path, passing down the recursive
middleware. -/
def intoGroups {M H : Type} :
    List (RouteGroup M H) → List M → RouteLevel M H → RouteLevel M H
  | [], _, acc => acc
  | g :: rest, rm, acc =>
    intoGroups rest rm (acc.add_level g.path g.into_route_level rm)

end

/-- Embedding of `RouteLevel::add_group`. -/
def RouteLevel.add_group {M H : Type} (t : RouteLevel M H) (group : RouteGroup M H)
    (middleware : List M) : RouteLevel M H :=
  t.add_level group.path group.into_route_level middleware

/-- Structural induction principle for the nested inductive `RouteLevel`:
the motive holds at a node whenever it holds at every static child and at
the wildcard child. -/
theorem RouteLevel.nodeInduction {M H : Type} {motive : RouteLevel M H → Prop}
    (step : ∀ self statics wild,
      (∀ p ∈ statics, motive p.2) →
      (∀ w c, wild = some (w, c) → motive c) →
      motive (.mk self statics wild)) :
    ∀ t, motive t
  | .mk self statics wild =>
    step self statics wild
      (fun p _hp => RouteLevel.nodeInduction step p.2)
      (fun w c _hc => RouteLevel.nodeInduction step c)
decreasing_by
  · have := List.sizeOf_lt_of_mem _hp
    obtain ⟨pk, pv⟩ := p
    simp_wf
    simp at this ⊢
    omega
  · simp_wf
    subst _hc
    simp
    omega

/-- A literal request path: runtime request segments are plain strings; the
trie compares them as static segment names. -/
def literalPath (segments : List String) : RoutePath :=
  segments.map RoutePathSegment.Static

/-- The node of the trie reached by descending a literal request path with
the lookup policy of `get_recursive`: an exactly matching static child
first, else the wildcard child, else no node. -/
def RouteLevel.reaches {M H : Type} : RouteLevel M H → List String → Option (RouteLevel M H)
  | t, [] => some t
  | t, name :: rest =>
    match lookupKey t.static_sub_routes name with
    | some routes => routes.reaches rest
    | none =>
      match t.wildcard_sub_route with
      | some (_, routes) => routes.reaches rest
      | none => none

/-- The methods registered at a trie node: the keys of `self_routes`.  This
is the set the spec intends a method-not-allowed report to carry (for an
`Allow` header). -/
def RouteLevel.allowed_methods {M H : Type} (t : RouteLevel M H) : List HttpMethod :=
  t.self_routes.map Prod.fst

mutual

/-- All static segment names registered anywhere in the trie: the child
names at this node followed by the names in all subtrees. -/
def RouteLevel.segment_names {M H : Type} : RouteLevel M H → List String
  | .mk _ statics wild =>
    statics.map Prod.fst ++ segmentNamesStatics statics ++ segmentNamesWild wild

/-- Names in the static children's subtrees. -/
def segmentNamesStatics {M H : Type} : List (String × RouteLevel M H) → List String
  | [] => []
  | (_, c) :: rest => c.segment_names ++ segmentNamesStatics rest

/-- Names in the wildcard child's subtree. -/
def segmentNamesWild {M H : Type} : Option (String × RouteLevel M H) → List String
  | none => []
  | some (_, c) => c.segment_names

end

mutual

/-- Whether any wildcard child is registered anywhere in the trie.  A
wildcard segment matches every literal, so a path segment counts as
registered whenever a wildcard exists. -/
def RouteLevel.has_wildcard {M H : Type} : RouteLevel M H → Bool
  | .mk _ statics wild =>
    hasWildcardStatics statics ||
      (match wild with
       | some _ => true
       | none => false)

/-- Whether any static child's subtree holds a wildcard. -/
def hasWildcardStatics {M H : Type} : List (String × RouteLevel M H) → Bool
  | [] => false
  | (_, c) :: rest => c.has_wildcard || hasWildcardStatics rest

end

mutual

/-- Well-formedness of a trie as built by the `RouteLevel` API: the static
child names at every node are duplicate-free (a `HashMap` invariant). -/
def RouteLevel.wf {M H : Type} : RouteLevel M H → Bool
  | .mk _ statics wild =>
    decide ((statics.map Prod.fst).Nodup) && wfStatics statics &&
      (match wild with
       | some (_, c) => c.wf
       | none => true)

/-- Well-formedness of the static children. -/
def wfStatics {M H : Type} : List (String × RouteLevel M H) → Bool
  | [] => true
  | (_, c) :: rest => c.wf && wfStatics rest

end

/-- The node reached by following the declared static segments of a path
exactly (no wildcard fallback): the descent used to characterise where a
declared all-static route is stored. -/
def RouteLevel.static_reaches {M H : Type} : RouteLevel M H → List String → Option (RouteLevel M H)
  | t, [] => some t
  | t, s :: rest =>
    match lookupKey t.static_sub_routes s with
    | some c => c.static_reaches rest
    | none => none

mutual

/-- Every `CompleteRouteHandler` stored anywhere in the trie. -/
def RouteLevel.all_handlers {M H : Type} : RouteLevel M H → List (CompleteRouteHandler M H)
  | .mk self statics wild =>
    self.map Prod.snd ++ allHandlersStatics statics ++ allHandlersWild wild

/-- Handlers stored in the static children. -/
def allHandlersStatics {M H : Type} :
    List (String × RouteLevel M H) → List (CompleteRouteHandler M H)
  | [] => []
  | (_, c) :: rest => c.all_handlers ++ allHandlersStatics rest

/-- Handlers stored in the wildcard child. -/
def allHandlersWild {M H : Type} :
    Option (String × RouteLevel M H) → List (CompleteRouteHandler M H)
  | none => []
  | some (_, c) => c.all_handlers

end

namespace Chain

/-- The next-middleware capability (`NextFn` in `middleware.rs`): an async
callable from request to response, embedded as a pure function. -/
def NextFn (Req Res : Type) : Type := Req → Res

/-- A middleware callable.  In the source a middleware is a callable
`Request -> Response` that reads the remainder-of-chain capability from
`req.next`; storing that capability inside the request is defunctionalized
here by passing it as an explicit first argument. -/
def Middleware (Req Res : Type) : Type := NextFn Req Res → Req → Res

/-- Embedding of `CompleteRouteHandler::generate_invoker_recursive`
(`routing.rs` lines 403-426): with no middleware the capability calls the
handler directly (the source clears `req.next` before calling it); with a
head middleware the capability invokes that middleware with the capability
recursively built from the tail, exactly the tail-backward construction of
the source. -/
def generate_invoker_recursive {Req Res : Type} :
    List (Middleware Req Res) → NextFn Req Res → NextFn Req Res
  | [], handler => fun req => handler req
  | first :: rest, handler => fun req => first (generate_invoker_recursive rest handler) req

/-- Embedding of `CompleteRouteHandler::generate_invoker`. -/
def generate_invoker {Req Res : Type} (middleware : List (Middleware Req Res))
    (handler : NextFn Req Res) : NextFn Req Res :=
  generate_invoker_recursive middleware handler

/-- A request carrying the shared per-request order list of the spec's
middleware-ordering scenario. -/
structure LogRequest where
  log : List String
deriving DecidableEq, Repr

/-- A response carrying the handler's body and the response-header trail
appended by middleware after `next` returns. -/
structure LogResponse where
  body : List String
  trailer : List String
deriving DecidableEq, Repr

/-- The scenario middleware of the spec's ordering property: append the
identifier to the request order list, call `next`, then append the
identifier to the response trail. -/
def loggingMiddleware (name : String) : Middleware LogRequest LogResponse :=
  fun next req =>
    let res := next ⟨req.log ++ [name]⟩
    ⟨res.body, res.trailer ++ [name]⟩

end Chain

/-- A type-keyed heterogeneous map (`TypeMap` in `typemap.rs`).  `TypeId` is
embedded as `Nat` and a `Box<dyn Any + Send + Sync>` as a dependent pair
`Sigma F` whose first component is the runtime type identity; the map is the
underlying `HashMap<TypeId, Box<dyn Any>>` as an association of boxes keyed
by their own type identity. -/
structure TypeMap (F : Nat → Type) where
  entries : List (Sigma F)

/-- Embedding of `TypeMap::new`. -/
def TypeMap.new {F : Nat → Type} : TypeMap F := ⟨[]⟩

/-- The `downcast().unwrap()` on a stored box: succeeds exactly when the
box's type identity equals the requested one. -/
def downcastBox {F : Nat → Type} (k : Nat) (b : Sigma F) : Option (F k) :=
  if h : b.1 = k then some (h ▸ b.2) else none

/-- Embedding of `HashMap::insert` on the underlying map: replace the entry
whose key (the box's type identity) matches, in place, else append; also
return the previous entry. -/
def insertBox {F : Nat → Type} : List (Sigma F) → Sigma F → Option (Sigma F) × List (Sigma F)
  | [], b => (none, [b])
  | b' :: t, b =>
    if b'.1 = b.1 then (some b', b :: t)
    else
      let r := insertBox t b
      (r.1, b' :: r.2)

/-- Embedding of `TypeMap::insert::<T>` (`typemap.rs` lines 19-26): insert
the boxed value keyed by its own type identity and downcast the evicted box,
returning it alongside the new map. -/
def TypeMap.insert {F : Nat → Type} (m : TypeMap F) (k : Nat) (v : F k) :
    Option (F k) × TypeMap F :=
  let r := insertBox m.entries ⟨k, v⟩
  (r.1.bind (downcastBox k), ⟨r.2⟩)

/-- Embedding of `TypeMap::get::<T>`: look the type identity up and downcast. -/
def TypeMap.get {F : Nat → Type} (m : TypeMap F) (k : Nat) : Option (F k) :=
  (m.entries.find? (fun b => b.1 = k)).bind (downcastBox k)

/-- Embedding of `TypeMap::get_mut::<T>`: the same presence behaviour as
`get`, returning the stored value (the mutable-reference aspect is not
observable in a pure embedding). -/
def TypeMap.get_mut {F : Nat → Type} (m : TypeMap F) (k : Nat) : Option (F k) :=
  (m.entries.find? (fun b => b.1 = k)).bind (downcastBox k)

/-- Embedding of `HashMap::remove` on the underlying map: drop the entry
with the matching key, returning it. -/
def removeBox {F : Nat → Type} : List (Sigma F) → Nat → Option (Sigma F) × List (Sigma F)
  | [], _ => (none, [])
  | b' :: t, k =>
    if b'.1 = k then (some b', t)
    else
      let r := removeBox t k
      (r.1, b' :: r.2)

/-- Embedding of `TypeMap::remove::<T>` (`typemap.rs` lines 65-72). -/
def TypeMap.remove {F : Nat → Type} (m : TypeMap F) (k : Nat) :
    Option (F k) × TypeMap F :=
  let r := removeBox m.entries k
  (r.1.bind (downcastBox k), ⟨r.2⟩)

/-- The type identities stored in the map. -/
def TypeMap.keys {F : Nat → Type} (m : TypeMap F) : List Nat :=
  m.entries.map Sigma.fst

theorem Chain.generate_invoker_recursive_logging (names : List String)
    (h : Chain.NextFn Chain.LogRequest Chain.LogResponse) :
    ∀ l : List String,
      Chain.generate_invoker_recursive (names.map Chain.loggingMiddleware) h ⟨l⟩ =
        ⟨(h ⟨l ++ names⟩).body, (h ⟨l ++ names⟩).trailer ++ names.reverse⟩ := by
  induction names with
  | nil =>
    intro l
    simp [Chain.generate_invoker_recursive]
  | cons n rest ih =>
    intro l
    simp only [List.map_cons, Chain.generate_invoker_recursive, Chain.loggingMiddleware]
    rw [ih (l ++ [n])]
    simp

/-- Claim C5: for every middleware list `[m1, ..., mN]` and terminal handler
`h` composed by the invoker generator of `CompleteRouteHandler`, one
invocation runs the middleware outer-to-inner: the effects performed before
calling `next` (appends to the per-request order list) happen in order
`m1, ..., mN`, so the handler observes the order list extended by exactly
that sequence; the effects performed after `next` returns (appends to the
response trail) happen in reverse order `mN, ..., m1`; the handler's
response body is threaded back through every layer unchanged; and with an
empty middleware list the invoker calls the handler directly. -/
theorem c5_middleware_chain_order (names : List String)
    (h : Chain.NextFn Chain.LogRequest Chain.LogResponse) (l : List String) :
    Chain.generate_invoker (names.map Chain.loggingMiddleware) h ⟨l⟩ =
      ⟨(h ⟨l ++ names⟩).body, (h ⟨l ++ names⟩).trailer ++ names.reverse⟩ ∧
    Chain.generate_invoker ([] : List (Chain.Middleware Chain.LogRequest Chain.LogResponse))
      h ⟨l⟩ = h ⟨l⟩ := by
  constructor
  · exact Chain.generate_invoker_recursive_logging names h l
  · rfl

theorem insertBox_fst {F : Nat → Type} (l : List (Sigma F)) (b : Sigma F) :
    (insertBox l b).1 = l.find? (fun b' => b'.1 = b.1) := by
  induction l with
  | nil => simp [insertBox]
  | cons b' t ih =>
    by_cases hb : b'.1 = b.1
    · simp [insertBox, hb, List.find?]
    · simp [insertBox, hb, List.find?, ih]

theorem insertBox_keys_mem {F : Nat → Type} (l : List (Sigma F)) (b : Sigma F) (x : Nat)
    (hx : x ∈ (insertBox l b).2.map Sigma.fst) : x = b.1 ∨ x ∈ l.map Sigma.fst := by
  induction l with
  | nil =>
    simp [insertBox] at hx
    exact Or.inl hx
  | cons b' t ih =>
    by_cases hb : b'.1 = b.1
    · rw [insertBox, if_pos hb] at hx
      rw [List.map_cons, List.mem_cons] at hx
      rcases hx with hx | hx
      · exact Or.inl hx
      · exact Or.inr (by rw [List.map_cons, List.mem_cons]; exact Or.inr hx)
    · rw [insertBox, if_neg hb] at hx
      rw [List.map_cons, List.mem_cons] at hx
      rcases hx with hx | hx
      · exact Or.inr (by rw [List.map_cons, List.mem_cons]; exact Or.inl hx)
      · rcases ih hx with hx' | hx'
        · exact Or.inl hx'
        · exact Or.inr (by rw [List.map_cons, List.mem_cons]; exact Or.inr hx')

theorem insertBox_keys {F : Nat → Type} (l : List (Sigma F)) (b : Sigma F)
    (h : (l.map Sigma.fst).Nodup) : ((insertBox l b).2.map Sigma.fst).Nodup := by
  induction l with
  | nil => simp [insertBox]
  | cons b' t ih =>
    rw [List.map_cons, List.nodup_cons] at h
    obtain ⟨h1, h2⟩ := h
    by_cases hb : b'.1 = b.1
    · rw [insertBox, if_pos hb, List.map_cons, List.nodup_cons]
      exact ⟨hb ▸ h1, h2⟩
    · rw [insertBox, if_neg hb, List.map_cons, List.nodup_cons]
      refine ⟨fun hmem => ?_, ih h2⟩
      rcases insertBox_keys_mem t b b'.1 hmem with heq | hmem'
      · exact hb heq
      · exact h1 hmem'

theorem insertBox_filter_self {F : Nat → Type} (l : List (Sigma F)) (b : Sigma F)
    (h : (l.map Sigma.fst).Nodup) :
    (insertBox l b).2.filter (fun b' => b'.1 = b.1) = [b] := by
  induction l with
  | nil => simp [insertBox]
  | cons b' t ih =>
    rw [List.map_cons, List.nodup_cons] at h
    obtain ⟨h1, h2⟩ := h
    by_cases hb : b'.1 = b.1
    · rw [insertBox, if_pos hb]
      have hnone : t.filter (fun b'' => decide (b''.1 = b.1)) = [] := by
        rw [List.filter_eq_nil_iff]
        intro b'' hb''
        simp only [decide_eq_true_eq]
        intro heq
        exact h1 (hb ▸ heq ▸ List.mem_map_of_mem Sigma.fst hb'')
      rw [List.filter_cons_of_pos (by simp), hnone]
    · rw [insertBox, if_neg hb]
      rw [List.filter_cons_of_neg (by simpa using hb)]
      exact ih h2

theorem find_eq_head_filter {α : Type} (p : α → Bool) (l : List α) :
    l.find? p = (l.filter p).head? := by
  induction l with
  | nil => rfl
  | cons a t ih =>
    cases hpa : p a
    · simp only [List.find?_cons, List.filter_cons, hpa, ih]
      simp
    · simp only [List.find?_cons, List.filter_cons, hpa]
      simp

theorem find_none_iff_keys {F : Nat → Type} (l : List (Sigma F)) (k : Nat) :
    l.find? (fun b => b.1 = k) = none ↔ k ∉ l.map Sigma.fst := by
  rw [List.find?_eq_none]
  constructor
  · intro h hmem
    rw [List.mem_map] at hmem
    obtain ⟨b, hbmem, hbk⟩ := hmem
    exact absurd (by simpa using hbk) (by simpa using h b hbmem)
  · intro h b hbmem
    simp only [decide_eq_true_eq]
    intro heq
    exact h (heq ▸ List.mem_map_of_mem Sigma.fst hbmem)

theorem find_bind_downcast_none_iff {F : Nat → Type} (l : List (Sigma F)) (k : Nat) :
    (l.find? (fun b => b.1 = k)).bind (downcastBox k) = none ↔ k ∉ l.map Sigma.fst := by
  rcases hf : l.find? (fun b => b.1 = k) with _ | b
  · rw [hf]
    exact iff_of_true rfl ((find_none_iff_keys l k).mp hf)
  · have hb : b.1 = k := by simpa using List.find?_some hf
    have hmem : k ∈ l.map Sigma.fst :=
      hb ▸ List.mem_map_of_mem Sigma.fst (List.mem_of_find?_eq_some hf)
    rw [hf]
    refine iff_of_false ?_ (by simpa using hmem)
    simp [downcastBox, hb]

theorem removeBox_fst {F : Nat → Type} (l : List (Sigma F)) (k : Nat) :
    (removeBox l k).1 = l.find? (fun b => b.1 = k) := by
  induction l with
  | nil => simp [removeBox]
  | cons b t ih =>
    by_cases hb : b.1 = k
    · simp [removeBox, hb, List.find?]
    · simp [removeBox, hb, List.find?, ih]

theorem removeBox_sublist {F : Nat → Type} (l : List (Sigma F)) (k : Nat) :
    (removeBox l k).2.Sublist l := by
  induction l with
  | nil => simp [removeBox]
  | cons b t ih =>
    by_cases hb : b.1 = k
    · simp only [removeBox, if_pos hb]
      exact List.sublist_cons_self b t
    · simp only [removeBox, if_neg hb]
      exact List.Sublist.cons₂ b ih

/-- Claim C9: the `TypeMap` operations preserve the at-most-one-value-per-
type invariant.  On a map whose stored type identities are duplicate-free:
inserting a value of type `T` leaves exactly one stored value of that type,
namely the new one, and returns the previously stored value of type `T`
(i.e. exactly what `get` returned before the insert — `Some` of the old
value when present, `None` when absent); insert and remove preserve the
duplicate-freeness; and `get`, `get_mut` and `remove` return `None` exactly
when no value of the type is present. -/
theorem c9_typemap_single_slot {F : Nat → Type} (m : TypeMap F) (k : Nat) (v : F k)
    (hnd : m.keys.Nodup) :
    (m.insert k v).1 = m.get k ∧
    ((m.insert k v).2.entries.filter (fun b => b.1 = k) = [⟨k, v⟩]) ∧
    ((m.insert k v).2.get k = some v) ∧
    ((m.insert k v).2.keys.Nodup) ∧
    ((m.remove k).2.keys.Nodup) ∧
    (m.get k = none ↔ k ∉ m.keys) ∧
    (m.get_mut k = none ↔ k ∉ m.keys) ∧
    ((m.remove k).1 = none ↔ k ∉ m.keys) := by
  refine ⟨?_, ?_, ?_, ?_, ?_, ?_, ?_, ?_⟩
  · simp [TypeMap.insert, TypeMap.get, insertBox_fst]
  · exact insertBox_filter_self m.entries ⟨k, v⟩ hnd
  · have hfilter := insertBox_filter_self m.entries ⟨k, v⟩ hnd
    have hfind : (insertBox m.entries ⟨k, v⟩).2.find? (fun b => b.1 = k) = some ⟨k, v⟩ := by
      rw [find_eq_head_filter]
      have hpred : (fun (b : Sigma F) => decide (b.1 = k)) =
          (fun (b : Sigma F) => decide (b.1 = (⟨k, v⟩ : Sigma F).1)) := rfl
      rw [hpred, hfilter]
      rfl
    simp [TypeMap.get, TypeMap.insert, hfind, downcastBox]
  · exact insertBox_keys m.entries ⟨k, v⟩ hnd
  · have := (removeBox_sublist m.entries k).map Sigma.fst
    exact List.Nodup.sublist this hnd
  · exact find_bind_downcast_none_iff m.entries k
  · exact find_bind_downcast_none_iff m.entries k
  · show ((removeBox m.entries k).1.bind (downcastBox k) = none) ↔ _
    rw [removeBox_fst]
    exact find_bind_downcast_none_iff m.entries k

/-- Witness for claim C9 at a concrete map: one entry of type identity 0
holding `5`, inserting `7` at the same identity. -/
theorem c9_typemap_single_slot_witness :
    ((⟨[⟨0, 5⟩]⟩ : TypeMap (fun _ => Nat)).keys.Nodup) ∧
    ((⟨[⟨0, 5⟩]⟩ : TypeMap (fun _ => Nat)).insert 0 7).1 =
      (⟨[⟨0, 5⟩]⟩ : TypeMap (fun _ => Nat)).get 0 := by
  refine ⟨by decide, ?_⟩
  exact (c9_typemap_single_slot (⟨[⟨0, 5⟩]⟩ : TypeMap (fun _ => Nat)) 0 7 (by decide)).1

/-- The three-route trie of the method-not-allowed scenario: GET, HEAD and
DELETE handlers all registered at the declared path `/test`. -/
def mnaScenarioTrie : RouteLevel Nat Nat :=
  (((RouteLevel.empty.add .get [RoutePathSegment.Static ("test")] ⟨[], 1⟩).add
    .head [RoutePathSegment.Static ("test")] ⟨[], 2⟩).add
    .delete [RoutePathSegment.Static ("test")] ⟨[], 3⟩)

/-- Claim C1 (code bug evidence): with GET, HEAD and DELETE registered at
`/test`, a PUT lookup evaluates to the bare `MethodNotAllowed` outcome the
source constructs at `routing.rs:478` — carrying no allowed-method set —
while the set of methods registered at that exact node is `{GET, HEAD,
DELETE}`, the set the claim (and the crate's own `test_automatic_405` test
and `Error::MethodNotAllowed(HashSet<Method>)` declaration) requires the
error to carry. -/
theorem c1_method_not_allowed_set_dropped :
    mnaScenarioTrie.get .put (literalPath [("test")]) = RouteResult.methodNotAllowed ∧
    (mnaScenarioTrie.reaches [("test")]).map RouteLevel.allowed_methods =
      some [.get, .head, .delete] := by
  constructor
  · rfl
  · rfl

/-- The two-route trie of the exact-match-priority scenario, with arbitrary
segment names and handlers: a wildcard route at `/a/\x7bx\x7d` registered
first, then a static route at `/a/b`. -/
def staticWinsTrie {M H : Type} (a b x : String) (hx hb : CompleteRouteHandler M H) :
    RouteLevel M H :=
  (RouteLevel.empty.add .get [RoutePathSegment.Static a, RoutePathSegment.Wildcard x] hx).add
    .get [RoutePathSegment.Static a, RoutePathSegment.Static b] hb

/-- Claim C2: with a static route and a wildcard route registered under the
same parent node, a lookup whose trailing segment equals the static name
resolves to the static handler with a `Static` matched segment, and a lookup
with any other literal trailing segment resolves to the wildcard handler
with the wildcard name paired with the literal value: the static match wins
over the wildcard at the same node. -/
theorem c2_static_match_wins {M H : Type} (a b x c : String)
    (hx hb : CompleteRouteHandler M H) (hcb : c ≠ b) :
    (staticWinsTrie a b x hx hb).get .get (literalPath [a, b]) =
      RouteResult.ok [RoutePathMatchedSegment.Static a, RoutePathMatchedSegment.Static b] hb ∧
    (staticWinsTrie a b x hx hb).get .get (literalPath [a, c]) =
      RouteResult.ok [RoutePathMatchedSegment.Static a, RoutePathMatchedSegment.Wildcard x c] hx := by
  constructor
  · simp [staticWinsTrie, RouteLevel.get, RouteLevel.get_recursive, RouteLevel.add,
      RouteLevel.empty, insertKey, lookupKey, literalPath, RouteLevel.static_sub_routes,
      RouteLevel.self_routes, RouteLevel.wildcard_sub_route]
  · simp [staticWinsTrie, RouteLevel.get, RouteLevel.get_recursive, RouteLevel.add,
      RouteLevel.empty, insertKey, lookupKey, literalPath, RouteLevel.static_sub_routes,
      RouteLevel.self_routes, RouteLevel.wildcard_sub_route, Ne.symm hcb]

/-- Witness for claim C2 at concrete names and handlers. -/
theorem c2_static_match_wins_witness :
    (("c") : String) ≠ ("b") ∧
    (staticWinsTrie ("a") ("b") ("x") (⟨[], 1⟩ : CompleteRouteHandler Nat Nat) ⟨[], 2⟩).get
      .get (literalPath [("a"), ("b")]) =
      RouteResult.ok [RoutePathMatchedSegment.Static ("a"), RoutePathMatchedSegment.Static ("b")]
        ⟨[], 2⟩ := by
  refine ⟨by decide, ?_⟩
  exact (c2_static_match_wins ("a") ("b") ("x") ("c")
    (⟨[], 1⟩ : CompleteRouteHandler Nat Nat) ⟨[], 2⟩ (by decide)).1

/-- Claim C3 (code bug evidence): the dispatch layer (`server.rs:120`)
parses the runtime request path with the same wildcard-aware parser used for
declared routes, so the request path string `/foo/{x}` parses to a path
containing a `Wildcard` segment, and the trie lookup on it reaches the
`unreachable!()` arm of `get_recursive` (`routing.rs:498`) and panics
instead of returning an ordinary routing outcome. -/
theorem c3_wildcard_request_path_panics :
    RoutePath.from_string ("/foo/{x}") =
      [RoutePathSegment.Static ("foo"), RoutePathSegment.Wildcard ("x")] ∧
    (RouteLevel.empty.add .get (RoutePath.from_string ("/foo/bar"))
      (⟨[], 1⟩ : CompleteRouteHandler Nat Nat)).get
      .get (RoutePath.from_string ("/foo/{x}")) = RouteResult.panicked := by
  constructor
  · rfl
  · rfl

/-- Claim C8 (code bug evidence): `with_segments` maps a start bound
`Included(a)` to index `a + 1` (the `Included`/`Excluded` match arms are
inverted relative to `RangeBounds` semantics), so `of_segments(0..2)` on the
two-segment path `/a/b` yields only `["b"]` instead of the whole path,
`of_segments(0..len)` does not reproduce the path, and the slice for the
empty range `1..1` panics (`start = 2 > end = 1`). -/
theorem c8_with_segments_start_bound_inverted :
    RoutePath.of_segments [RoutePathSegment.Static ("a"), RoutePathSegment.Static ("b")]
      (rustRange 0 2) = some [RoutePathSegment.Static ("b")] ∧
    RoutePath.of_segments [RoutePathSegment.Static ("a"), RoutePathSegment.Static ("b")]
      (rustRange 0 2) ≠
      some [RoutePathSegment.Static ("a"), RoutePathSegment.Static ("b")] ∧
    RoutePath.with_segments [RoutePathSegment.Static ("a"), RoutePathSegment.Static ("b")]
      (rustRange 1 1) = none := by
  refine ⟨by decide, by decide, by decide⟩

theorem lookupKey_mem {κ β : Type} [DecidableEq κ] (l : List (κ × β)) (k : κ) (v : β)
    (h : lookupKey l k = some v) : (k, v) ∈ l := by
  induction l with
  | nil => simp [lookupKey] at h
  | cons p t ih =>
    obtain ⟨k', v'⟩ := p
    by_cases hk : k' = k
    · rw [lookupKey, if_pos hk] at h
      subst hk
      rw [Option.some_inj] at h
      subst h
      exact List.mem_cons_self _ _
    · rw [lookupKey, if_neg hk] at h
      exact List.mem_cons_of_mem _ (ih h)

theorem lookupKey_eq_none_iff {κ β : Type} [DecidableEq κ] (l : List (κ × β)) (k : κ) :
    lookupKey l k = none ↔ k ∉ l.map Prod.fst := by
  induction l with
  | nil => simp [lookupKey]
  | cons p t ih =>
    obtain ⟨k', v'⟩ := p
    by_cases hk : k' = k
    · rw [lookupKey, if_pos hk]
      simp [hk]
    · rw [lookupKey, if_neg hk]
      rw [List.map_cons, List.mem_cons, ih]
      constructor
      · intro hn hor
        rcases hor with heq | hmem
        · exact hk heq.symm
        · exact hn hmem
      · intro hn hmem
        exact hn (Or.inr hmem)

theorem lookupKey_of_mem_nodup {κ β : Type} [DecidableEq κ] (l : List (κ × β)) (k : κ) (v : β)
    (hnd : (l.map Prod.fst).Nodup) (hmem : (k, v) ∈ l) : lookupKey l k = some v := by
  induction l with
  | nil => simp at hmem
  | cons p t ih =>
    obtain ⟨k', v'⟩ := p
    rw [List.map_cons, List.nodup_cons] at hnd
    rw [List.mem_cons] at hmem
    rcases hmem with heq | hmem
    · rw [Prod.mk.injEq] at heq
      rw [lookupKey, if_pos heq.1.symm, heq.2]
    · by_cases hk : k' = k
      · exfalso
        apply hnd.1
        rw [hk]
        exact List.mem_map.mpr ⟨(k, v), hmem, rfl⟩
      · rw [lookupKey, if_neg hk]
        exact ih hnd.2 hmem

theorem lookupKey_insertKey_self {κ β : Type} [DecidableEq κ] (l : List (κ × β)) (k : κ) (v : β) :
    lookupKey (insertKey l k v) k = some v := by
  induction l with
  | nil => simp [insertKey, lookupKey]
  | cons p t ih =>
    obtain ⟨k', v'⟩ := p
    by_cases hk : k' = k
    · rw [insertKey, if_pos hk, lookupKey, if_pos rfl]
    · rw [insertKey, if_neg hk, lookupKey, if_neg hk]
      exact ih

theorem insertKey_mem_self {κ β : Type} [DecidableEq κ] (l : List (κ × β)) (k : κ) (v : β) :
    (k, v) ∈ insertKey l k v :=
  lookupKey_mem _ _ _ (lookupKey_insertKey_self l k v)

theorem insertKey_mem_preserve {κ β : Type} [DecidableEq κ] (l : List (κ × β)) (k k' : κ)
    (v v' : β) (hmem : (k', v') ∈ l) (hne : k' ≠ k) : (k', v') ∈ insertKey l k v := by
  induction l with
  | nil => simp at hmem
  | cons p t ih =>
    obtain ⟨k₀, v₀⟩ := p
    rw [List.mem_cons] at hmem
    by_cases hk : k₀ = k
    · rw [insertKey, if_pos hk]
      rcases hmem with heq | hmem
      · exfalso
        rw [Prod.mk.injEq] at heq
        exact hne (heq.1.trans hk)
      · exact List.mem_cons_of_mem _ hmem
    · rw [insertKey, if_neg hk]
      rcases hmem with heq | hmem
      · rw [heq]
        exact List.mem_cons_self _ _
      · exact List.mem_cons_of_mem _ (ih hmem)

theorem insertKey_mem_or {κ β : Type} [DecidableEq κ] (l : List (κ × β)) (k k' : κ) (v v' : β)
    (hmem : (k', v') ∈ l) :
    (k', v') ∈ insertKey l k v ∨ (k' = k ∧ lookupKey l k = some v') := by
  induction l with
  | nil => simp at hmem
  | cons p t ih =>
    obtain ⟨k₀, v₀⟩ := p
    rw [List.mem_cons] at hmem
    by_cases hk : k₀ = k
    · rw [insertKey, if_pos hk]
      rcases hmem with heq | hmem
      · rw [Prod.mk.injEq] at heq
        right
        refine ⟨heq.1.trans hk, ?_⟩
        rw [lookupKey, if_pos hk, heq.2]
      · left
        exact List.mem_cons_of_mem _ hmem
    · rw [insertKey, if_neg hk]
      rcases hmem with heq | hmem
      · left
        rw [heq]
        exact List.mem_cons_self _ _
      · rcases ih hmem with hi | hi
        · left
          exact List.mem_cons_of_mem _ hi
        · right
          refine ⟨hi.1, ?_⟩
          rw [lookupKey, if_neg hk]
          exact hi.2

theorem insertKey_values_mem {κ β : Type} [DecidableEq κ] (l : List (κ × β)) (k k' : κ)
    (v v' : β) (hmem : (k', v') ∈ insertKey l k v) : v' = v ∨ (k', v') ∈ l := by
  induction l with
  | nil =>
    simp [insertKey] at hmem
    exact Or.inl hmem.2
  | cons p t ih =>
    obtain ⟨k₀, v₀⟩ := p
    by_cases hk : k₀ = k
    · rw [insertKey, if_pos hk, List.mem_cons] at hmem
      rcases hmem with heq | hmem
      · rw [Prod.mk.injEq] at heq
        exact Or.inl heq.2
      · exact Or.inr (List.mem_cons_of_mem _ hmem)
    · rw [insertKey, if_neg hk, List.mem_cons] at hmem
      rcases hmem with heq | hmem
      · rw [heq]
        exact Or.inr (List.mem_cons_self _ _)
      · rcases ih hmem with hi | hi
        · exact Or.inl hi
        · exact Or.inr (List.mem_cons_of_mem _ hi)

theorem get_recursive_literal_classify {M H : Type} :
    ∀ (ss : List String) (t : RouteLevel M H) (m : HttpMethod) (acc : RoutePathMatched),
      (t.reaches ss = none → t.get_recursive m (literalPath ss) acc = RouteResult.notFound) ∧
      (∀ n, t.reaches ss = some n →
        (lookupKey n.self_routes m = none →
          t.get_recursive m (literalPath ss) acc = RouteResult.methodNotAllowed) ∧
        (∀ r, lookupKey n.self_routes m = some r →
          ∃ pm, t.get_recursive m (literalPath ss) acc = RouteResult.ok pm r)) := by
  intro ss
  induction ss with
  | nil =>
    intro t m acc
    constructor
    · intro hr
      simp [RouteLevel.reaches] at hr
    · intro n hn
      rw [RouteLevel.reaches, Option.some_inj] at hn
      subst hn
      constructor
      · intro hl
        simp [literalPath, RouteLevel.get_recursive, hl]
      · intro r hl
        exact ⟨acc, by simp [literalPath, RouteLevel.get_recursive, hl]⟩
  | cons s rest ih =>
    intro t m acc
    cases hstat : lookupKey t.static_sub_routes s with
    | some c =>
      have hr : t.reaches (s :: rest) = c.reaches rest := by
        rw [RouteLevel.reaches, hstat]
      have hg : t.get_recursive m (literalPath (s :: rest)) acc
          = c.get_recursive m (literalPath rest) (acc ++ [RoutePathMatchedSegment.Static s]) := by
        simp only [literalPath, List.map_cons, RouteLevel.get_recursive, hstat]
      rw [hr]
      constructor
      · intro hnone
        rw [hg]
        exact (ih c m _).1 hnone
      · intro n hn
        constructor
        · intro hl
          rw [hg]
          exact ((ih c m _).2 n hn).1 hl
        · intro r hl
          rw [hg]
          exact ((ih c m _).2 n hn).2 r hl
    | none =>
      cases hw : t.wildcard_sub_route with
      | some p =>
        obtain ⟨w, c⟩ := p
        have hr : t.reaches (s :: rest) = c.reaches rest := by
          rw [RouteLevel.reaches, hstat]
          simp [hw]
        have hg : t.get_recursive m (literalPath (s :: rest)) acc
            = c.get_recursive m (literalPath rest)
                (acc ++ [RoutePathMatchedSegment.Wildcard w s]) := by
          simp only [literalPath, List.map_cons, RouteLevel.get_recursive, hstat, hw]
        rw [hr]
        constructor
        · intro hnone
          rw [hg]
          exact (ih c m _).1 hnone
        · intro n hn
          constructor
          · intro hl
            rw [hg]
            exact ((ih c m _).2 n hn).1 hl
          · intro r hl
            rw [hg]
            exact ((ih c m _).2 n hn).2 r hl
      | none =>
        have hr : t.reaches (s :: rest) = none := by
          rw [RouteLevel.reaches, hstat]
          simp [hw]
        constructor
        · intro _
          simp only [literalPath, List.map_cons, RouteLevel.get_recursive, hstat, hw]
        · intro n hn
          rw [hr] at hn
          exact absurd hn (by simp)

/-- Claim C10: a lookup whose literal path reaches an existing trie node at
which no handler is registered for any method returns `MethodNotAllowed`
rather than `NotFound`, for every requested method; the set of methods
registered at that exact node — the allowed set a method-not-allowed
response is meant to carry — is empty.  (The code's `MethodNotAllowed`
value itself carries no method set; see C1.) -/
theorem c10_empty_node_returns_method_not_allowed {M H : Type} (t : RouteLevel M H)
    (ss : List String) (n : RouteLevel M H) (m : HttpMethod)
    (hreach : t.reaches ss = some n) (hempty : n.self_routes = []) :
    t.get m (literalPath ss) = RouteResult.methodNotAllowed ∧ n.allowed_methods = [] := by
  constructor
  · exact ((get_recursive_literal_classify ss t m []).2 n hreach).1 (by rw [hempty]; rfl)
  · rw [RouteLevel.allowed_methods, hempty]
    rfl

/-- The strict-prefix scenario of C10: only GET `/a/b` is registered; the
node at `/a` exists with no routes of its own. -/
def prefixScenarioTrie : RouteLevel Nat Nat :=
  RouteLevel.empty.add .get (literalPath [("a"), ("b")]) ⟨[], 1⟩

/-- Witness for claim C10: looking GET `/a` up in `prefixScenarioTrie`. -/
theorem c10_empty_node_returns_method_not_allowed_witness :
    prefixScenarioTrie.reaches [("a")] =
      some (RouteLevel.mk [] [(("b"), RouteLevel.mk [(.get, ⟨[], 1⟩)] [] none)] none) ∧
    (RouteLevel.mk ([] : List (HttpMethod × CompleteRouteHandler Nat Nat))
      [(("b"), RouteLevel.mk [(.get, ⟨[], 1⟩)] [] none)] none).self_routes = [] ∧
    prefixScenarioTrie.get .get (literalPath [("a")]) = RouteResult.methodNotAllowed := by
  refine ⟨rfl, rfl, ?_⟩
  exact (c10_empty_node_returns_method_not_allowed prefixScenarioTrie [("a")]
    (RouteLevel.mk [] [(("b"), RouteLevel.mk [(.get, ⟨[], 1⟩)] [] none)] none) .get rfl rfl).1

theorem flatten_statics_prepend {M H : Type} (statics : List (String × RouteLevel M H))
    (pre : RoutePath)
    (ih : ∀ p ∈ statics, ∀ pre' : RoutePath,
      p.2.flatten_recursive pre' =
        (p.2.flatten_recursive []).map (fun r => (r.1, pre' ++ r.2.1, r.2.2))) :
    flattenStatics statics pre =
      (flattenStatics statics []).map (fun r => (r.1, pre ++ r.2.1, r.2.2)) := by
  induction statics with
  | nil => rfl
  | cons p rest ihs =>
    obtain ⟨name, c⟩ := p
    rw [flattenStatics, flattenStatics, List.map_append]
    congr 1
    · rw [ih (name, c) (List.mem_cons_self _ _) (pre ++ [RoutePathSegment.Static name]),
        ih (name, c) (List.mem_cons_self _ _) ([] ++ [RoutePathSegment.Static name]),
        List.map_map]
      apply List.map_congr_left
      intro r _
      simp
    · exact ihs (fun p hp => ih p (List.mem_cons_of_mem _ hp))

theorem flatten_recursive_prepend {M H : Type} :
    ∀ (t : RouteLevel M H) (pre : RoutePath),
      t.flatten_recursive pre =
        (t.flatten_recursive []).map (fun r => (r.1, pre ++ r.2.1, r.2.2)) := by
  apply RouteLevel.nodeInduction
    (motive := fun t => ∀ pre : RoutePath,
      t.flatten_recursive pre =
        (t.flatten_recursive []).map (fun r => (r.1, pre ++ r.2.1, r.2.2)))
  intro self statics wild ihs ihw pre
  rw [RouteLevel.flatten_recursive, RouteLevel.flatten_recursive, List.map_append,
    List.map_append]
  congr 1
  · congr 1
    · rw [List.map_map]
      apply List.map_congr_left
      intro r _
      simp
    · exact flatten_statics_prepend statics pre ihs
  · cases wild with
    | none => rfl
    | some p =>
      obtain ⟨w, c⟩ := p
      rw [flattenWild, flattenWild]
      rw [ihw w c rfl (pre ++ [RoutePathSegment.Wildcard w]),
        ihw w c rfl ([] ++ [RoutePathSegment.Wildcard w]), List.map_map]
      apply List.map_congr_left
      intro r _
      simp

theorem flatten_statics_mem_iff {M H : Type} (statics : List (String × RouteLevel M H))
    (pre : RoutePath) (x : HttpMethod × RoutePath × CompleteRouteHandler M H) :
    x ∈ flattenStatics statics pre ↔
      ∃ s c, (s, c) ∈ statics ∧
        x ∈ c.flatten_recursive (pre ++ [RoutePathSegment.Static s]) := by
  induction statics with
  | nil => simp [flattenStatics]
  | cons p rest ih =>
    obtain ⟨name, c⟩ := p
    rw [flattenStatics, List.mem_append, ih]
    constructor
    · intro h
      rcases h with h | ⟨s, c', hmem, hx⟩
      · exact ⟨name, c, List.mem_cons_self _ _, h⟩
      · exact ⟨s, c', List.mem_cons_of_mem _ hmem, hx⟩
    · intro ⟨s, c', hmem, hx⟩
      rw [List.mem_cons] at hmem
      rcases hmem with heq | hmem
      · rw [Prod.mk.injEq] at heq
        left
        rw [← heq.1, ← heq.2]
        exact hx
      · right
        exact ⟨s, c', hmem, hx⟩

theorem mem_flatten_iff {M H : Type} (t : RouteLevel M H)
    (x : HttpMethod × RoutePath × CompleteRouteHandler M H) :
    x ∈ t.flatten ↔
      (((x.1, x.2.2) ∈ t.self_routes ∧ x.2.1 = []) ∨
       (∃ s c q, (s, c) ∈ t.static_sub_routes ∧
          x.2.1 = RoutePathSegment.Static s :: q ∧ (x.1, q, x.2.2) ∈ c.flatten) ∨
       (∃ w c q, t.wildcard_sub_route = some (w, c) ∧
          x.2.1 = RoutePathSegment.Wildcard w :: q ∧ (x.1, q, x.2.2) ∈ c.flatten)) := by
  obtain ⟨m, q, crh⟩ := x
  rcases t with ⟨self, statics, wild⟩
  rw [RouteLevel.flatten, RouteLevel.flatten_recursive, List.mem_append, List.mem_append]
  simp only [RouteLevel.self_routes, RouteLevel.static_sub_routes, RouteLevel.wildcard_sub_route]
  constructor
  · intro h
    rcases h with (h | h) | h
    · rw [List.mem_map] at h
      obtain ⟨r, hr, heq⟩ := h
      obtain ⟨m', crh'⟩ := r
      simp only [Prod.mk.injEq] at heq
      obtain ⟨h1, h2, h3⟩ := heq
      left
      subst h1
      subst h3
      exact ⟨hr, h2.symm⟩
    · rw [flatten_statics_mem_iff] at h
      obtain ⟨s, c, hmem, hx⟩ := h
      rw [flatten_recursive_prepend, List.mem_map] at hx
      obtain ⟨r, hr, heq⟩ := hx
      obtain ⟨m', q', crh'⟩ := r
      simp only [Prod.mk.injEq] at heq
      obtain ⟨h1, h2, h3⟩ := heq
      right
      left
      subst h1
      subst h3
      refine ⟨s, c, q', hmem, ?_, hr⟩
      rw [← h2]
      rfl
    · cases wild with
      | none => simp [flattenWild] at h
      | some p =>
        obtain ⟨w, c⟩ := p
        rw [flattenWild, flatten_recursive_prepend, List.mem_map] at h
        obtain ⟨r, hr, heq⟩ := h
        obtain ⟨m', q', crh'⟩ := r
        simp only [Prod.mk.injEq] at heq
        obtain ⟨h1, h2, h3⟩ := heq
        right
        right
        subst h1
        subst h3
        refine ⟨w, c, q', rfl, ?_, hr⟩
        rw [← h2]
        rfl
  · intro h
    rcases h with ⟨hmem, hq⟩ | ⟨s, c, q', hmem, hq, hx⟩ | ⟨w, c, q', hww, hq, hx⟩
    · left
      left
      rw [List.mem_map]
      exact ⟨(m, crh), hmem, by rw [hq]⟩
    · left
      right
      rw [flatten_statics_mem_iff]
      refine ⟨s, c, hmem, ?_⟩
      rw [flatten_recursive_prepend, List.mem_map]
      exact ⟨(m, q', crh), hx, by rw [hq]; rfl⟩
    · right
      rw [hww, flattenWild, flatten_recursive_prepend, List.mem_map]
      exact ⟨(m, q', crh), hx, by rw [hq]; rfl⟩

theorem wf_parts {M H : Type} (self : List (HttpMethod × CompleteRouteHandler M H))
    (statics : List (String × RouteLevel M H)) (wild : Option (String × RouteLevel M H))
    (h : (RouteLevel.mk self statics wild).wf = true) :
    (statics.map Prod.fst).Nodup ∧ wfStatics statics = true ∧
      (∀ w c, wild = some (w, c) → c.wf = true) := by
  cases wild with
  | none =>
    replace h : (decide ((statics.map Prod.fst).Nodup) && wfStatics statics && true) = true := h
    rw [Bool.and_eq_true, Bool.and_eq_true] at h
    refine ⟨by simpa using h.1.1, h.1.2, ?_⟩
    intro w c hw
    exact absurd hw (by simp)
  | some p =>
    obtain ⟨w0, c0⟩ := p
    replace h : (decide ((statics.map Prod.fst).Nodup) && wfStatics statics && c0.wf) = true := h
    rw [Bool.and_eq_true, Bool.and_eq_true] at h
    refine ⟨by simpa using h.1.1, h.1.2, ?_⟩
    intro w c hw
    rw [Option.some_inj, Prod.mk.injEq] at hw
    rw [← hw.2]
    exact h.2

theorem wfStatics_mem {M H : Type} (statics : List (String × RouteLevel M H)) (s : String)
    (c : RouteLevel M H) (h : wfStatics statics = true) (hmem : (s, c) ∈ statics) :
    c.wf = true := by
  induction statics with
  | nil => simp at hmem
  | cons p rest ih =>
    obtain ⟨s', c'⟩ := p
    rw [wfStatics, Bool.and_eq_true] at h
    rw [List.mem_cons] at hmem
    rcases hmem with heq | hmem
    · rw [Prod.mk.injEq] at heq
      rw [heq.2]
      exact h.1
    · exact ih h.2 hmem

theorem wf_static_child {M H : Type} (t : RouteLevel M H) (s : String) (c : RouteLevel M H)
    (h : t.wf = true) (hmem : (s, c) ∈ t.static_sub_routes) : c.wf = true := by
  rcases t with ⟨self, statics, wild⟩
  exact wfStatics_mem statics s c (wf_parts self statics wild h).2.1 hmem

theorem static_reaches_to_reaches {M H : Type} :
    ∀ (ss : List String) (t n : RouteLevel M H),
      t.static_reaches ss = some n → t.reaches ss = some n := by
  intro ss
  induction ss with
  | nil =>
    intro t n h
    exact h
  | cons s rest ih =>
    intro t n h
    rw [RouteLevel.static_reaches] at h
    cases hstat : lookupKey t.static_sub_routes s with
    | none => rw [hstat] at h; exact absurd h (by simp)
    | some c =>
      rw [hstat] at h
      rw [RouteLevel.reaches, hstat]
      exact ih c n h

theorem flatten_mem_static_reaches {M H : Type} :
    ∀ (ss : List String) (t : RouteLevel M H) (m : HttpMethod)
      (crh : CompleteRouteHandler M H),
      t.wf = true → (m, literalPath ss, crh) ∈ t.flatten →
      ∃ n, t.static_reaches ss = some n ∧ (m, crh) ∈ n.self_routes := by
  intro ss
  induction ss with
  | nil =>
    intro t m crh hwf hmem
    rw [mem_flatten_iff] at hmem
    rcases hmem with ⟨hself, _⟩ | ⟨s, c, q, _, hq, _⟩ | ⟨w, c, q, _, hq, _⟩
    · exact ⟨t, rfl, hself⟩
    · exact absurd hq (by simp [literalPath])
    · exact absurd hq (by simp [literalPath])
  | cons s rest ih =>
    intro t m crh hwf hmem
    rw [mem_flatten_iff] at hmem
    rcases hmem with ⟨_, hq⟩ | ⟨s', c, q, hmem', hq, hx⟩ | ⟨w, c, q, _, hq, _⟩
    · exact absurd hq (by simp [literalPath])
    · have hq' : s' = s ∧ q = literalPath rest := by
        rw [show literalPath (s :: rest) = RoutePathSegment.Static s :: literalPath rest
          from rfl] at hq
        rw [List.cons.injEq] at hq
        refine ⟨?_, hq.2.symm⟩
        have h1 := hq.1
        injection h1 with h2
        exact h2.symm
      obtain ⟨hs, hqq⟩ := hq'
      subst hs
      subst hqq
      rcases t with ⟨self, statics, wild⟩
      have hparts := wf_parts self statics wild hwf
      have hlook : lookupKey statics s' = some c :=
        lookupKey_of_mem_nodup statics s' c hparts.1 hmem'
      have hcwf : c.wf = true := wfStatics_mem statics s' c hparts.2.1 hmem'
      obtain ⟨n, hn, hmemn⟩ := ih c m crh hcwf hx
      refine ⟨n, ?_, hmemn⟩
      rw [RouteLevel.static_reaches]
      simp only [RouteLevel.static_sub_routes]
      rw [hlook]
      exact hn
    · exact absurd hq (by simp [literalPath])

theorem static_reaches_route_mem_flatten {M H : Type} :
    ∀ (ss : List String) (t n : RouteLevel M H) (m : HttpMethod)
      (r : CompleteRouteHandler M H),
      t.static_reaches ss = some n → lookupKey n.self_routes m = some r →
      (m, literalPath ss, r) ∈ t.flatten := by
  intro ss
  induction ss with
  | nil =>
    intro t n m r hreach hl
    rw [RouteLevel.static_reaches, Option.some_inj] at hreach
    subst hreach
    rw [mem_flatten_iff]
    exact Or.inl ⟨lookupKey_mem _ _ _ hl, rfl⟩
  | cons s rest ih =>
    intro t n m r hreach hl
    rw [RouteLevel.static_reaches] at hreach
    cases hstat : lookupKey t.static_sub_routes s with
    | none => rw [hstat] at hreach; exact absurd hreach (by simp)
    | some c =>
      rw [hstat] at hreach
      rw [mem_flatten_iff]
      right
      left
      exact ⟨s, c, literalPath rest, lookupKey_mem _ _ _ hstat, rfl, ih c n m r hreach hl⟩

theorem segment_names_head {M H : Type} (t : RouteLevel M H) (s : String)
    (h : s ∈ t.static_sub_routes.map Prod.fst) : s ∈ t.segment_names := by
  rcases t with ⟨self, statics, wild⟩
  rw [RouteLevel.segment_names, List.mem_append, List.mem_append]
  exact Or.inl (Or.inl h)

theorem has_wildcard_root {M H : Type} (t : RouteLevel M H)
    (h : t.has_wildcard = false) : t.wildcard_sub_route = none := by
  rcases t with ⟨self, statics, wild⟩
  cases wild with
  | none => rfl
  | some p =>
    obtain ⟨w0, c0⟩ := p
    replace h : (hasWildcardStatics statics || true) = false := h
    simp at h

/-- Claim C4: for every well-formed trie and literal request path, (1) a
lookup for a nonempty path none of whose segments is registered anywhere in
the trie (no static child anywhere carries any of its names, and no wildcard
child — which would match any name — exists anywhere) returns `NotFound`;
and (2) a lookup for a path at which a route is registered (a flatten entry
exists at that declared path) never returns `NotFound`, and returns
`MethodNotAllowed` whenever the requested method has no route at that path;
the two outcomes are never swapped. -/
theorem c4_not_found_vs_method_not_allowed {M H : Type} (t : RouteLevel M H)
    (m : HttpMethod) (ss : List String) (hwf : t.wf = true) :
    ((ss ≠ [] ∧ (∀ s ∈ ss, s ∉ t.segment_names) ∧ t.has_wildcard = false) →
      t.get m (literalPath ss) = RouteResult.notFound) ∧
    (∀ m' crh, (m', literalPath ss, crh) ∈ t.flatten →
      (t.get m (literalPath ss) ≠ RouteResult.notFound ∧
        ((∀ crh', (m, literalPath ss, crh') ∉ t.flatten) →
          t.get m (literalPath ss) = RouteResult.methodNotAllowed))) := by
  constructor
  · intro ⟨hne, hnames, hwild⟩
    cases ss with
    | nil => exact absurd rfl hne
    | cons s rest =>
      have hs : s ∉ t.static_sub_routes.map Prod.fst := by
        intro hmem
        exact hnames s (List.mem_cons_self _ _) (segment_names_head t s hmem)
      have hstat : lookupKey t.static_sub_routes s = none :=
        (lookupKey_eq_none_iff _ _).mpr hs
      have hw : t.wildcard_sub_route = none := has_wildcard_root t hwild
      rw [RouteLevel.get]
      simp only [literalPath, List.map_cons, RouteLevel.get_recursive, hstat, hw]
  · intro m' crh hmem
    obtain ⟨n, hreach, hmemn⟩ := flatten_mem_static_reaches ss t m' crh hwf hmem
    have hreach' : t.reaches ss = some n := static_reaches_to_reaches ss t n hreach
    have hclass := (get_recursive_literal_classify ss t m []).2 n hreach'
    constructor
    · cases hl : lookupKey n.self_routes m with
      | none =>
        rw [RouteLevel.get, hclass.1 hl]
        simp
      | some r =>
        obtain ⟨pm, hpm⟩ := hclass.2 r hl
        rw [RouteLevel.get, hpm]
        simp
    · intro hnone
      cases hl : lookupKey n.self_routes m with
      | none => exact hclass.1 hl
      | some r =>
        exfalso
        exact hnone r (static_reaches_route_mem_flatten ss t n m r hreach hl)

/-- Witness for claim C4: a trie with only GET `/a/b` registered; the path
`/z` has no registered segment and yields `NotFound`, and the registered
path `/a/b` with method PUT yields `MethodNotAllowed`. -/
theorem c4_not_found_vs_method_not_allowed_witness :
    prefixScenarioTrie.wf = true ∧
    prefixScenarioTrie.get .get (literalPath [("z")]) = RouteResult.notFound ∧
    prefixScenarioTrie.get .put (literalPath [("a"), ("b")]) =
      RouteResult.methodNotAllowed := by
  refine ⟨rfl, ?_, ?_⟩
  · exact (c4_not_found_vs_method_not_allowed prefixScenarioTrie .get [("z")] rfl).1
      ⟨by decide, by decide, rfl⟩
  · refine ((c4_not_found_vs_method_not_allowed prefixScenarioTrie .put
      [("a"), ("b")] rfl).2 .get ⟨[], 1⟩ (by decide)).2 ?_
    intro crh' hmem
    rw [show prefixScenarioTrie.flatten =
      [(.get, literalPath [("a"), ("b")], (⟨[], 1⟩ : CompleteRouteHandler Nat Nat))]
      from rfl] at hmem
    simp at hmem

theorem add_literal_route_found {M H : Type} :
    ∀ (ss : List String) (t : RouteLevel M H) (m : HttpMethod)
      (h : CompleteRouteHandler M H),
      ∃ n, (t.add m (literalPath ss) h).static_reaches ss = some n ∧
        lookupKey n.self_routes m = some h := by
  intro ss
  induction ss with
  | nil =>
    intro t m h
    rcases t with ⟨self, statics, wild⟩
    refine ⟨RouteLevel.mk (insertKey self m h) statics wild, rfl, ?_⟩
    exact lookupKey_insertKey_self self m h
  | cons s rest ih =>
    intro t m h
    rcases t with ⟨self, statics, wild⟩
    obtain ⟨n, hreach, hl⟩ :=
      ih ((lookupKey statics s).getD RouteLevel.empty) m h
    refine ⟨n, ?_, hl⟩
    rw [show (RouteLevel.mk self statics wild).add m (literalPath (s :: rest)) h =
      RouteLevel.mk self
        (insertKey statics s
          (((lookupKey statics s).getD RouteLevel.empty).add m (literalPath rest) h))
        wild from rfl]
    rw [RouteLevel.static_reaches]
    simp only [RouteLevel.static_sub_routes]
    rw [lookupKey_insertKey_self]
    exact hreach

theorem add_static_frame {M H : Type} :
    ∀ (ss : List String) (t : RouteLevel M H) (m : HttpMethod)
      (h : CompleteRouteHandler M H) (m' : HttpMethod) (q : RoutePath)
      (crh : CompleteRouteHandler M H),
      (m', q, crh) ∈ t.flatten → ¬(m' = m ∧ q = literalPath ss) →
      (m', q, crh) ∈ (t.add m (literalPath ss) h).flatten := by
  intro ss
  induction ss with
  | nil =>
    intro t m h m' q crh hmem hex
    rcases t with ⟨self, statics, wild⟩
    rw [mem_flatten_iff] at hmem
    rw [show (RouteLevel.mk self statics wild).add m (literalPath []) h =
      RouteLevel.mk (insertKey self m h) statics wild from rfl]
    rw [mem_flatten_iff]
    simp only [RouteLevel.self_routes, RouteLevel.static_sub_routes,
      RouteLevel.wildcard_sub_route] at hmem ⊢
    rcases hmem with ⟨hself, hq⟩ | hrest | hrest
    · left
      refine ⟨?_, hq⟩
      have hne : m' ≠ m := by
        intro heq
        exact hex ⟨heq, hq⟩
      exact insertKey_mem_preserve self m m' h crh hself hne
    · right
      left
      exact hrest
    · right
      right
      exact hrest
  | cons s rest ih =>
    intro t m h m' q crh hmem hex
    rcases t with ⟨self, statics, wild⟩
    rw [mem_flatten_iff] at hmem
    rw [show (RouteLevel.mk self statics wild).add m (literalPath (s :: rest)) h =
      RouteLevel.mk self
        (insertKey statics s
          (((lookupKey statics s).getD RouteLevel.empty).add m (literalPath rest) h))
        wild from rfl]
    rw [mem_flatten_iff]
    simp only [RouteLevel.self_routes, RouteLevel.static_sub_routes,
      RouteLevel.wildcard_sub_route] at hmem ⊢
    rcases hmem with hself | ⟨s₀, c₀, q₀, hmem₀, hq₀, hx₀⟩ | hrest
    · left
      exact hself
    · rcases insertKey_mem_or statics s s₀
        (((lookupKey statics s).getD RouteLevel.empty).add m (literalPath rest) h) c₀
        hmem₀ with hin | ⟨hs₀, hlook⟩
      · right
        left
        exact ⟨s₀, c₀, q₀, hin, hq₀, hx₀⟩
      · subst hs₀
        have hchild : (lookupKey statics s₀).getD RouteLevel.empty = c₀ := by
          rw [hlook]
          rfl
        right
        left
        refine ⟨s₀, (c₀.add m (literalPath rest) h), q₀, ?_, hq₀, ?_⟩
        · rw [← hchild]
          exact insertKey_mem_self statics s₀ _
        · apply ih c₀ m h m' q₀ crh hx₀
          intro ⟨hm', hq'⟩
          apply hex
          refine ⟨hm', ?_⟩
          rw [hq₀, hq']
          rfl
    · right
      right
      exact hrest

/-- The two-route wildcard scenario of C7: GET `/a/{x}/b` added first, then
GET `/a/{x}/c` with the same wildcard name. -/
def wildRebuildTrie : RouteLevel Nat Nat :=
  (RouteLevel.empty.add .get
    [RoutePathSegment.Static ("a"), RoutePathSegment.Wildcard ("x"), RoutePathSegment.Static ("b")]
    ⟨[], 1⟩).add .get
    [RoutePathSegment.Static ("a"), RoutePathSegment.Wildcard ("x"), RoutePathSegment.Static ("c")]
    ⟨[], 2⟩

/-- Counterexample to claim C7 as stated: after adding GET `/a/{x}/b` and
then GET `/a/{x}/c` (same wildcard name `x`), the claim says lookups for
both GET `/a/v/b` and GET `/a/v/c` succeed, but the lookup for GET `/a/v/b`
returns `NotFound` — the second `add` rebuilt the wildcard subtree of `/a`
from scratch, discarding the `/b` branch. -/
theorem c7_same_wildcard_add_discards_sibling :
    wildRebuildTrie.get .get (literalPath [("a"), ("v"), ("b")]) = RouteResult.notFound := by
  rfl

/-- Claim C7 as amended: adding a route at an all-static declared path
creates intermediate nodes on demand, making the new route retrievable, and
leaves every previously registered route with a different
`(method, declared path)` key present in the trie unchanged; but a route
whose declared path passes through a wildcard segment rebuilds the whole
wildcard subtree at that node from scratch — even for the same wildcard
name — so after adding GET `/a/{x}/b` and then GET `/a/{x}/c` only
GET `/a/v/c` resolves, while GET `/a/v/b` returns `NotFound`. -/
theorem c7_add_frame_and_wildcard_rebuild {M H : Type} (t : RouteLevel M H)
    (m : HttpMethod) (ss : List String) (h : CompleteRouteHandler M H) :
    (∀ m' q crh, (m', q, crh) ∈ t.flatten → ¬(m' = m ∧ q = literalPath ss) →
      (m', q, crh) ∈ (t.add m (literalPath ss) h).flatten) ∧
    ((m, literalPath ss, h) ∈ (t.add m (literalPath ss) h).flatten) ∧
    (wildRebuildTrie.get .get (literalPath [("a"), ("v"), ("c")]) =
      RouteResult.ok
        [RoutePathMatchedSegment.Static ("a"), RoutePathMatchedSegment.Wildcard ("x") ("v"),
          RoutePathMatchedSegment.Static ("c")] ⟨[], 2⟩) ∧
    (wildRebuildTrie.get .get (literalPath [("a"), ("v"), ("b")]) = RouteResult.notFound) := by
  refine ⟨fun m' q crh hmem hex => add_static_frame ss t m h m' q crh hmem hex, ?_, rfl, rfl⟩
  obtain ⟨n, hreach, hl⟩ := add_literal_route_found ss t m h
  exact static_reaches_route_mem_flatten ss _ n m h hreach hl

/-- The base trie of the C7 witness: one GET route at `/a`. -/
def frameBaseTrie : RouteLevel Nat Nat :=
  RouteLevel.empty.add .get (literalPath [("a")]) ⟨[], 5⟩

/-- Witness for claim C7 (amended): the GET `/a` route registered before an
unrelated PUT `/b` insertion is still present afterwards. -/
theorem c7_add_frame_and_wildcard_rebuild_witness :
    ((.get : HttpMethod), literalPath [("a")], (⟨[], 5⟩ : CompleteRouteHandler Nat Nat)) ∈
      frameBaseTrie.flatten ∧
    ((.get : HttpMethod), literalPath [("a")], (⟨[], 5⟩ : CompleteRouteHandler Nat Nat)) ∈
      (frameBaseTrie.add .put (literalPath [("b")]) ⟨[], 6⟩).flatten := by
  refine ⟨by decide, ?_⟩
  exact (c7_add_frame_and_wildcard_rebuild frameBaseTrie .put [("b")] ⟨[], 6⟩).1
    .get (literalPath [("a")]) ⟨[], 5⟩ (by decide) (by decide)

/-- Structural induction principle for the nested inductive `RouteGroup`:
the motive holds at a group whenever it holds at every nested sub-group. -/
theorem RouteGroup.groupInduction {M H : Type} {motive : RouteGroup M H → Prop}
    (step : ∀ p r gs mw, (∀ g ∈ gs, motive g) → motive (.mk p r gs mw)) :
    ∀ g, motive g
  | .mk p r gs mw =>
    step p r gs mw (fun g _hg => RouteGroup.groupInduction step g)
decreasing_by
  have := List.sizeOf_lt_of_mem _hg
  simp_wf
  omega

theorem allHandlersStatics_mem_iff {M H : Type} (statics : List (String × RouteLevel M H))
    (crh : CompleteRouteHandler M H) :
    crh ∈ allHandlersStatics statics ↔
      ∃ s c, (s, c) ∈ statics ∧ crh ∈ c.all_handlers := by
  induction statics with
  | nil => simp [allHandlersStatics]
  | cons p rest ih =>
    obtain ⟨name, c⟩ := p
    rw [allHandlersStatics, List.mem_append, ih]
    constructor
    · intro h
      rcases h with h | ⟨s, c', hmem, hx⟩
      · exact ⟨name, c, List.mem_cons_self _ _, h⟩
      · exact ⟨s, c', List.mem_cons_of_mem _ hmem, hx⟩
    · intro ⟨s, c', hmem, hx⟩
      rw [List.mem_cons] at hmem
      rcases hmem with heq | hmem
      · rw [Prod.mk.injEq] at heq
        left
        rw [← heq.2]
        exact hx
      · right
        exact ⟨s, c', hmem, hx⟩

theorem mem_map_snd_iff {κ β : Type} (l : List (κ × β)) (v : β) :
    v ∈ l.map Prod.snd ↔ ∃ k, (k, v) ∈ l := by
  rw [List.mem_map]
  constructor
  · intro ⟨p, hp, he⟩
    exact ⟨p.1, by rw [show (p.1, v) = p from by rw [← he]]; exact hp⟩
  · intro ⟨k, hk⟩
    exact ⟨(k, v), hk, rfl⟩

theorem all_handlers_empty {M H : Type} :
    (RouteLevel.empty : RouteLevel M H).all_handlers = [] := rfl

theorem all_handlers_add {M H : Type} :
    ∀ (p : RoutePath) (t : RouteLevel M H) (m : HttpMethod)
      (h crh : CompleteRouteHandler M H),
      crh ∈ (t.add m p h).all_handlers → crh = h ∨ crh ∈ t.all_handlers := by
  intro p
  induction p with
  | nil =>
    intro t m h crh hmem
    rcases t with ⟨self, statics, wild⟩
    rw [show (RouteLevel.mk self statics wild).add m [] h =
      RouteLevel.mk (insertKey self m h) statics wild from rfl] at hmem
    rw [RouteLevel.all_handlers, List.mem_append, List.mem_append] at hmem
    rcases hmem with (hmem | hmem) | hmem
    · rw [mem_map_snd_iff] at hmem
      obtain ⟨k, hk⟩ := hmem
      rcases insertKey_values_mem self m k h crh hk with heq | hin
      · exact Or.inl heq
      · right
        rw [RouteLevel.all_handlers, List.mem_append, List.mem_append]
        exact Or.inl (Or.inl ((mem_map_snd_iff self crh).mpr ⟨k, hin⟩))
    · right
      rw [RouteLevel.all_handlers, List.mem_append, List.mem_append]
      exact Or.inl (Or.inr hmem)
    · right
      rw [RouteLevel.all_handlers, List.mem_append, List.mem_append]
      exact Or.inr hmem
  | cons seg rest ih =>
    intro t m h crh hmem
    rcases t with ⟨self, statics, wild⟩
    cases seg with
    | Static s =>
      rw [show (RouteLevel.mk self statics wild).add m (RoutePathSegment.Static s :: rest) h =
        RouteLevel.mk self
          (insertKey statics s
            (((lookupKey statics s).getD RouteLevel.empty).add m rest h))
          wild from rfl] at hmem
      rw [RouteLevel.all_handlers, List.mem_append, List.mem_append] at hmem
      rcases hmem with (hmem | hmem) | hmem
      · right
        rw [RouteLevel.all_handlers, List.mem_append, List.mem_append]
        exact Or.inl (Or.inl hmem)
      · rw [allHandlersStatics_mem_iff] at hmem
        obtain ⟨s₀, c₀, hmem₀, hx₀⟩ := hmem
        rcases insertKey_values_mem statics s s₀ _ c₀ hmem₀ with heq | hin
        · subst heq
          rcases ih ((lookupKey statics s).getD RouteLevel.empty) m h crh hx₀ with heq | hin'
          · exact Or.inl heq
          · cases hlook : lookupKey statics s with
            | none =>
              rw [hlook] at hin'
              exact absurd hin' (by rw [show (none : Option (RouteLevel M H)).getD
                RouteLevel.empty = RouteLevel.empty from rfl, all_handlers_empty]; simp)
            | some c =>
              rw [hlook] at hin'
              right
              rw [RouteLevel.all_handlers, List.mem_append, List.mem_append]
              refine Or.inl (Or.inr ?_)
              rw [allHandlersStatics_mem_iff]
              exact ⟨s, c, lookupKey_mem _ _ _ hlook, hin'⟩
        · right
          rw [RouteLevel.all_handlers, List.mem_append, List.mem_append]
          refine Or.inl (Or.inr ?_)
          rw [allHandlersStatics_mem_iff]
          exact ⟨s₀, c₀, hin, hx₀⟩
      · right
        rw [RouteLevel.all_handlers, List.mem_append, List.mem_append]
        exact Or.inr hmem
    | Wildcard w =>
      rw [show (RouteLevel.mk self statics wild).add m (RoutePathSegment.Wildcard w :: rest) h =
        RouteLevel.mk self statics
          (some (w, RouteLevel.empty.add m rest h)) from rfl] at hmem
      rw [RouteLevel.all_handlers, List.mem_append, List.mem_append] at hmem
      rcases hmem with (hmem | hmem) | hmem
      · right
        rw [RouteLevel.all_handlers, List.mem_append, List.mem_append]
        exact Or.inl (Or.inl hmem)
      · right
        rw [RouteLevel.all_handlers, List.mem_append, List.mem_append]
        exact Or.inl (Or.inr hmem)
      · rw [show allHandlersWild (some (w, RouteLevel.empty.add m rest h)) =
          (RouteLevel.empty.add m rest h).all_handlers from rfl] at hmem
        rcases ih RouteLevel.empty m h crh hmem with heq | hin
        · exact Or.inl heq
        · rw [all_handlers_empty] at hin
          exact absurd hin (by simp)

theorem flatten_mem_all_handlers {M H : Type} :
    ∀ (t : RouteLevel M H) (m : HttpMethod) (q : RoutePath)
      (crh : CompleteRouteHandler M H),
      (m, q, crh) ∈ t.flatten → crh ∈ t.all_handlers := by
  apply RouteLevel.nodeInduction
    (motive := fun t => ∀ (m : HttpMethod) (q : RoutePath) (crh : CompleteRouteHandler M H),
      (m, q, crh) ∈ t.flatten → crh ∈ t.all_handlers)
  intro self statics wild ihs ihw m q crh hmem
  rw [mem_flatten_iff] at hmem
  rw [RouteLevel.all_handlers, List.mem_append, List.mem_append]
  simp only [RouteLevel.self_routes, RouteLevel.static_sub_routes,
    RouteLevel.wildcard_sub_route] at hmem
  rcases hmem with ⟨hself, _⟩ | ⟨s, c, q', hmem', _, hx⟩ | ⟨w, c, q', hww, _, hx⟩
  · exact Or.inl (Or.inl ((mem_map_snd_iff self crh).mpr ⟨m, hself⟩))
  · refine Or.inl (Or.inr ?_)
    rw [allHandlersStatics_mem_iff]
    exact ⟨s, c, hmem', ihs (s, c) hmem' m q' crh hx⟩
  · right
    rw [hww]
    rw [show allHandlersWild (some (w, c)) = c.all_handlers from rfl]
    exact ihw w c hww m q' crh hx

theorem foldl_add_handlers {M H α : Type} (fm : α → HttpMethod) (fp : α → RoutePath)
    (fh : α → CompleteRouteHandler M H) :
    ∀ (l : List α) (t0 : RouteLevel M H) (crh : CompleteRouteHandler M H),
      crh ∈ (l.foldl (fun acc r => acc.add (fm r) (fp r) (fh r)) t0).all_handlers →
      (∃ r ∈ l, crh = fh r) ∨ crh ∈ t0.all_handlers := by
  intro l
  induction l with
  | nil =>
    intro t0 crh hmem
    exact Or.inr hmem
  | cons r rest ih =>
    intro t0 crh hmem
    rw [List.foldl_cons] at hmem
    rcases ih (t0.add (fm r) (fp r) (fh r)) crh hmem with ⟨r', hr', heq⟩ | hin
    · exact Or.inl ⟨r', List.mem_cons_of_mem _ hr', heq⟩
    · rcases all_handlers_add (fp r) t0 (fm r) (fh r) crh hin with heq | hin'
      · exact Or.inl ⟨r, List.mem_cons_self _ _, heq⟩
      · exact Or.inr hin'

theorem add_level_handlers {M H : Type} (t : RouteLevel M H) (sp : RoutePath)
    (lvl : RouteLevel M H) (mws : List M) (crh : CompleteRouteHandler M H)
    (hmem : crh ∈ (t.add_level sp lvl mws).all_handlers) :
    (∃ m p crh', (m, p, crh') ∈ lvl.flatten ∧ crh = crh'.add_middleware mws) ∨
      crh ∈ t.all_handlers := by
  rcases foldl_add_handlers (fun r => r.1) (fun r => sp ++ r.2.1)
    (fun r => r.2.2.add_middleware mws) lvl.flatten t crh (by exact hmem) with
    ⟨r, hr, heq⟩ | hin
  · obtain ⟨m, p, crh'⟩ := r
    exact Or.inl ⟨m, p, crh', hr, heq⟩
  · exact Or.inr hin

theorem intoGroups_handlers {M H : Type} :
    ∀ (gs : List (RouteGroup M H)) (rm : List M) (acc : RouteLevel M H)
      (crh : CompleteRouteHandler M H),
      crh ∈ (intoGroups gs rm acc).all_handlers →
      (∃ g ∈ gs, ∃ m p crh', (m, p, crh') ∈ (g.into_route_level).flatten ∧
        crh = crh'.add_middleware rm) ∨ crh ∈ acc.all_handlers := by
  intro gs
  induction gs with
  | nil =>
    intro rm acc crh hmem
    exact Or.inr hmem
  | cons g rest ih =>
    intro rm acc crh hmem
    rw [intoGroups] at hmem
    rcases ih rm (acc.add_level g.path g.into_route_level rm) crh hmem with
      ⟨g', hg', hx⟩ | hin
    · exact Or.inl ⟨g', List.mem_cons_of_mem _ hg', hx⟩
    · rcases add_level_handlers acc g.path g.into_route_level rm crh hin with hx | hin'
      · exact Or.inl ⟨g, List.mem_cons_self _ _, hx⟩
      · exact Or.inr hin'

/-- A descent through nested sub-groups: `GroupDescent g anc gd` holds when
`gd` is reached from `g` by stepping into nested sub-groups, and `anc` is
the concatenation — outermost (topmost ancestor) first — of the
`recursive_middleware` (the `Recursive` entries, in declaration order) of
every group strictly above `gd` on that path, `g` itself included and `gd`
itself excluded.  By construction `anc` is assembled from `Recursive`
entries only: no group's `Local` middleware ever enters it. -/
inductive GroupDescent {M H : Type} : RouteGroup M H → List M → RouteGroup M H → Prop where
  | here (g : RouteGroup M H) : GroupDescent g [] g
  | child (g g' gd : RouteGroup M H) (anc : List M) (hmem : g' ∈ g.groups)
      (hrest : GroupDescent g' anc gd) :
      GroupDescent g (recursiveMiddlewareOf g.middleware ++ anc) gd

theorem c6_handlers_descent {M H : Type} :
    ∀ (g : RouteGroup M H) (crh : CompleteRouteHandler M H),
      crh ∈ (g.into_route_level).all_handlers →
      ∃ gd anc, GroupDescent g anc gd ∧
        crh.middleware = anc ++ localMiddlewareOf gd.middleware ∧
        ∃ key, (key, crh.handler) ∈ gd.routes := by
  apply RouteGroup.groupInduction
    (motive := fun g => ∀ crh : CompleteRouteHandler M H,
      crh ∈ (g.into_route_level).all_handlers →
      ∃ gd anc, GroupDescent g anc gd ∧
        crh.middleware = anc ++ localMiddlewareOf gd.middleware ∧
        ∃ key, (key, crh.handler) ∈ gd.routes)
  intro p rs gs mw ih crh hmem
  rw [show (RouteGroup.mk p rs gs mw).into_route_level =
    intoGroups gs (recursiveMiddlewareOf mw)
      (rs.foldl (fun acc r => acc.add r.1.1 r.1.2
        (CompleteRouteHandler.new r.2 (localMiddlewareOf mw))) RouteLevel.empty)
    from rfl] at hmem
  rcases intoGroups_handlers gs (recursiveMiddlewareOf mw) _ crh hmem with
    ⟨g', hg', m, p', crh', hx, heq⟩ | hin
  · obtain ⟨gd, anc, hdesc, hchain, key, hkey⟩ :=
      ih g' hg' crh' (flatten_mem_all_handlers g'.into_route_level m p' crh' hx)
    refine ⟨gd, recursiveMiddlewareOf mw ++ anc, ?_, ?_, key, ?_⟩
    · exact GroupDescent.child (RouteGroup.mk p rs gs mw) g' gd anc hg' hdesc
    · rw [heq]
      rw [show (crh'.add_middleware (recursiveMiddlewareOf mw)).middleware =
        recursiveMiddlewareOf mw ++ crh'.middleware from rfl]
      rw [hchain, List.append_assoc]
    · rw [heq]
      rw [show (crh'.add_middleware (recursiveMiddlewareOf mw)).handler =
        crh'.handler from rfl]
      exact hkey
  · rcases foldl_add_handlers (fun r => r.1.1) (fun r => r.1.2)
      (fun r => CompleteRouteHandler.new r.2 (localMiddlewareOf mw)) rs
      RouteLevel.empty crh hin with ⟨r, hr, heq⟩ | hin'
    · refine ⟨RouteGroup.mk p rs gs mw, [], GroupDescent.here _, ?_, r.1, ?_⟩
      · rw [heq]
        rfl
      · rw [heq]
        rw [show (CompleteRouteHandler.new r.2 (localMiddlewareOf mw)).handler = r.2
          from rfl]
        rw [show ((r.1, r.2) : (HttpMethod × RoutePath) × H) = r from rfl]
        exact hr
    · rw [all_handlers_empty] at hin'
      exact absurd hin' (by simp)

/-- Claim C6: for every nested `RouteGroup` flattened into a trie, the
middleware chain of every route of the result is exactly the chain of its
declaring group context: there is a descent from the root group to the
group `gd` in which the route was declared — pinned down by the route's
handler occurring among `gd`'s directly declared routes — and the chain is
the concatenation of the `Recursive` middleware of every ancestor group
along that descent, topmost ancestor outermost (ancestors' `Local` entries
excluded by construction of the descent), followed by `gd`'s own
`local_middleware`: its `Local` entries plus its `Recursive` entries, in
declaration order.  In particular a group's `Local` middleware appears only
in the chains of routes declared directly in that group, never in a
descendant's chain, while its `Recursive` middleware is prepended to the
chain of every route of every descendant sub-group on the descent. -/
theorem c6_group_middleware_scope {M H : Type} (g : RouteGroup M H) (m : HttpMethod)
    (p : RoutePath) (crh : CompleteRouteHandler M H)
    (hmem : (m, p, crh) ∈ (g.into_route_level).flatten) :
    ∃ gd anc, GroupDescent g anc gd ∧
      crh.middleware = anc ++ localMiddlewareOf gd.middleware ∧
      ∃ key, (key, crh.handler) ∈ gd.routes :=
  c6_handlers_descent g crh (flatten_mem_all_handlers g.into_route_level m p crh hmem)

/-- The nested two-level group of the C6 witness: a root group with
recursive middleware `1` and local middleware `2` and a direct GET route at
`/r`, plus a sub-group at `/s` with local middleware `3` and a GET route at
`/q`. -/
def nestedScenarioGroup : RouteGroup Nat Nat :=
  RouteGroup.mk [] [((.get, literalPath [("r")]), 10)]
    [RouteGroup.mk (literalPath [("s")]) [((.get, literalPath [("q")]), 20)] []
      [AppliedMiddleware.Local 3]]
    [AppliedMiddleware.Recursive 1, AppliedMiddleware.Local 2]

/-- Witness for claim C6: in the flattened nested group, the sub-group's
route carries chain `[1, 3]`; the theorem produces its declaring descent —
the chain decomposes as the root's recursive middleware `[1]` followed by
the declaring sub-group's local middleware `[3]`, with handler `20`
declared in that sub-group, and the parent's local `2` absent. -/
theorem c6_group_middleware_scope_witness :
    ((.get : HttpMethod), literalPath [("s"), ("q")],
      (⟨[1, 3], 20⟩ : CompleteRouteHandler Nat Nat)) ∈
      (nestedScenarioGroup.into_route_level).flatten ∧
    (∃ gd anc, GroupDescent nestedScenarioGroup anc gd ∧
      (⟨[1, 3], 20⟩ : CompleteRouteHandler Nat Nat).middleware =
        anc ++ localMiddlewareOf gd.middleware ∧
      ∃ key, (key, (⟨[1, 3], 20⟩ : CompleteRouteHandler Nat Nat).handler) ∈ gd.routes) := by
  refine ⟨by decide, ?_⟩
  exact c6_group_middleware_scope nestedScenarioGroup .get (literalPath [("s"), ("q")])
    ⟨[1, 3], 20⟩ (by decide)
